import Mathlib

/-!
Verification of the rollout-collection / evaluation core of the carsim PPO
driver (`python/myPPO/my_on_policy_algorithm.py`).

The Python code is shallowly embedded: Python dictionaries that map simulator
step indices to buffer positions become insertion-ordered association lists,
the numpy reward grid of the rollout buffer becomes a function from
(row, env) to a rational, Python floats become rationals, and every fatal
`assert` (or `ValueError` from `max()` on an empty collection) becomes an
`Option`/failure result `none`.
-/

namespace Carsim

/-! ### Reward-reconciliation ledger (collect_rollouts, lines 367-397)

One ledger per environment: an insertion-ordered list of
(simulator step index, rollout-buffer row index) pairs, mirroring the Python
`reward_correction_dict[idx]` dictionary (Python dicts preserve insertion
order). -/

/-- Maximum of a list of keys, mirroring Python `max(dict.keys())`:
`none` on the empty list (where Python raises `ValueError`). -/
def maxKey (l : List Nat) : Option Nat :=
  match l with
  | [] => none
  | x :: xs => some (xs.foldl max x)

/-- Registration of one (step index -> buffer row) entry into an environment's
ledger, from `collect_rollouts` lines 369-376: fail if the step is already a
key; if the step is nonzero, require it to be `max(keys) + 1` (with an empty
key set, Python `max` raises `ValueError`, also fatal, modelled as `none`). -/
def ledgerRegister (ledger : List (Nat × Nat)) (step row : Nat) :
    Option (List (Nat × Nat)) :=
  if step ∈ ledger.map Prod.fst then none
  else if step = 0 then some (ledger ++ [(step, row)])
  else
    match maxKey (ledger.map Prod.fst) with
    | none => none
    | some m => if step = m + 1 then some (ledger ++ [(step, row)]) else none

/-- Sequence of registrations threaded through `Option` failure. -/
def foldRegisters : List (Nat × Nat) → List (Nat × Nat) →
    Option (List (Nat × Nat))
  | acc, [] => some acc
  | acc, (s, r) :: rest =>
    match ledgerRegister acc s r with
    | none => none
    | some acc' => foldRegisters acc' rest

/-! ### Episode count targets (eval_model_track, line 847) -/

/-- Per-environment episode count targets of `eval_model_track` and
`test_episodes_identical_start_conditions`:
`[(n_eval + i) // n_envs for i in range(n_envs)]`. -/
def episode_count_targets (n_envs n_eval : Nat) : List Nat :=
  (List.range n_envs).map (fun i => (n_eval + i) / n_envs)

/-- Target for one environment slot. -/
def targetOf (n_envs n_eval i : Nat) : Nat := (n_eval + i) / n_envs

/-! ### Reward reconciliation (collect_rollouts, lines 378-397)

The rollout buffer's reward grid `rollout_buffer.rewards` is modelled as a
total function from (row index, environment index) to a rational; the Python
assignment `rollout_buffer.rewards[bufferpos][env_id] = rewards[step]` becomes
a pointwise functional update. -/

/-- The loop `for step, bufferpos in reward_correction_dict[env_id].items():
rollout_buffer.rewards[bufferpos][env_id] = rewards[step]` (lines 390-391). -/
def reconcileWrites (envId : Nat) (auth : List ℚ) (ledger : List (Nat × Nat))
    (b : Nat → Nat → ℚ) : Nat → Nat → ℚ :=
  ledger.foldl
    (fun b p => fun row env =>
      if row = p.2 ∧ env = envId then auth.getD p.1 0 else b row env) b

/-- The whole done-or-horizon branch for one environment (lines 383-397):
assert `len(rewards) == len(reward_correction_dict[env_id])`, overwrite every
registered buffer cell with the authoritative reward of its step, assert
`len(reward_correction_dict[env_id]) == amount_of_steps`, then clear that
environment's ledger. Returns the updated buffer and the (emptied) ledger, or
`none` when one of the two assertions fails. -/
def reconcileEnv (envId : Nat) (auth : List ℚ) (amountOfSteps : Nat)
    (b : Nat → Nat → ℚ) (ledger : List (Nat × Nat)) :
    Option ((Nat → Nat → ℚ) × List (Nat × Nat)) :=
  if auth.length ≠ ledger.length then none
  else
    let b' := reconcileWrites envId auth ledger b
    if ledger.length ≠ amountOfSteps then none
    else some (b', [])

/-! ### One iteration of the collect_rollouts while-loop (lines 292-407)

Only the reward data flow is embedded: raw step rewards, the timeout
bootstrap (lines 337-348), the buffer `add` (line 355, modelled from the
spec, see `CollectState`), the info-length assertion (line 365), ledger
registration (lines 367-376) and reward reconciliation (lines 378-397).
The policy value of a terminal observation is abstracted as a rational
carried in the per-environment info payload. -/

/-- Per-environment entry of the `infos` list returned by the step call.
`step` is `int(info['step'])`, `episodeRewards` is `info['rewards']` (the
authoritative reward sequence, read at episode end), `amountOfSteps` is
`int(info['amount_of_steps'])`, `truncated` is `info.get('TimeLimit.truncated',
False)`, `hasTerminalObs` tells whether `info.get('terminal_observation')` is
not `None`, and `terminalValue` abstracts
`policy.predict_values(obs_to_tensor(info['terminal_observation']))[0]`. -/
structure StepInfo where
  step : Nat
  done : Bool
  truncated : Bool
  hasTerminalObs : Bool
  terminalValue : ℚ
  episodeRewards : List ℚ
  amountOfSteps : Nat
deriving Repr, DecidableEq, Inhabited

/-- Cycle-scoped state of `collect_rollouts`. `buffer` is the reward grid of
the rollout buffer (row, env) -> reward. Modelled from the spec: the buffer's
`add` (my_buffers.MyRolloutBuffer, not under src/) writes one row per call in
time order and returns the row index just written (spec section 4.3), so
`nextRow` is the row that the next `add` call writes and returns as
`insertpos`. `ledgers` is `reward_correction_dict` (one entry per
environment), `nSteps` is the loop counter `n_steps`. -/
structure CollectState where
  buffer : Nat → Nat → ℚ
  nextRow : Nat
  ledgers : List (List (Nat × Nat))
  nSteps : Nat
  collectedEpisodes : Nat

/-- Timeout bootstrapping (lines 337-348): for every environment whose step
result has `done`, a non-null terminal observation, and
`TimeLimit.truncated`, the raw reward is incremented by
`gamma * predict_values(terminal_observation)` before the buffer `add`. -/
def bootstrapRewards (gamma : ℚ) (numEnvs : Nat) (rawRewards : List ℚ)
    (infos : List StepInfo) : List ℚ :=
  (List.range numEnvs).map (fun idx =>
    let info := infos.getD idx default
    let r := rawRewards.getD idx 0
    if info.done ∧ info.hasTerminalObs ∧ info.truncated then
      r + gamma * info.terminalValue
    else r)

/-- The registration loop (lines 367-376): register the current buffer row
`insertpos` under key `int(info['step'])` in every environment's ledger. -/
def registerAll (insertpos : Nat) :
    List (List (Nat × Nat)) → List StepInfo → Option (List (List (Nat × Nat)))
  | [], [] => some []
  | L :: Ls, info :: is =>
    match ledgerRegister L info.step insertpos with
    | none => none
    | some L' =>
      match registerAll insertpos Ls is with
      | none => none
      | some Ls' => some (L' :: Ls')
  | _, _ => none

/-- The reconciliation loop (lines 378-397) over the environment indices:
an environment is reconciled when its episode just finished (`done`) or the
collection horizon is reached (`n_steps >= n_rollout_steps`, with `n_steps`
already incremented for the current iteration at line 329). -/
def reconcileFrom (nRolloutSteps nSteps : Nat) (infos : List StepInfo) :
    List Nat → (Nat → Nat → ℚ) → List (List (Nat × Nat)) →
    Option ((Nat → Nat → ℚ) × List (List (Nat × Nat)))
  | [], b, ledgers => some (b, ledgers)
  | i :: rest, b, ledgers =>
    let info := infos.getD i default
    if info.done ∨ nRolloutSteps ≤ nSteps then
      match reconcileEnv i info.episodeRewards info.amountOfSteps b
          (ledgers.getD i []) with
      | none => none
      | some (b', Li') =>
        reconcileFrom nRolloutSteps nSteps infos rest b' (ledgers.set i Li')
    else reconcileFrom nRolloutSteps nSteps infos rest b ledgers

/-- Count of environments whose episode finished this step
(`if done: self.collected_episodes += 1`, lines 380-381). -/
def countDones (numEnvs : Nat) (infos : List StepInfo) : Nat :=
  ((List.range numEnvs).filter (fun i => (infos.getD i default).done)).length

/-- One iteration of the while-loop of `collect_rollouts`, restricted to the
reward bookkeeping: increment `n_steps` (line 329), bootstrap truncated
episodes (lines 337-348), write the reward row into the buffer at `insertpos`
(line 355), assert `len(infos) == env.num_envs` (line 365), register the row
in every ledger (lines 367-376), then reconcile every finished-or-cut-off
environment (lines 378-397). Any failed assertion aborts with `none`. -/
def collectIteration (gamma : ℚ) (numEnvs nRolloutSteps : Nat)
    (s : CollectState) (rawRewards : List ℚ) (infos : List StepInfo) :
    Option CollectState :=
  if infos.length ≠ numEnvs then none
  else
    match registerAll s.nextRow s.ledgers infos with
    | none => none
    | some ledgers1 =>
      match reconcileFrom nRolloutSteps (s.nSteps + 1) infos (List.range numEnvs)
          (fun row env =>
            if row = s.nextRow
            then (bootstrapRewards gamma numEnvs rawRewards infos).getD env 0
            else s.buffer row env) ledgers1 with
      | none => none
      | some (buffer2, ledgers2) =>
        some { buffer := buffer2, nextRow := s.nextRow + 1,
               ledgers := ledgers2, nSteps := s.nSteps + 1,
               collectedEpisodes := s.collectedEpisodes + countDones numEnvs infos }

/-- Remainder of a collection cycle from a given state: one iteration per
trace element (raw rewards and infos delivered by the step call). -/
def collectRunFrom (gamma : ℚ) (numEnvs nRolloutSteps : Nat) :
    CollectState → List (List ℚ × List StepInfo) → Option CollectState
  | s, [] => some s
  | s, (rs, infos) :: rest =>
    match collectIteration gamma numEnvs nRolloutSteps s rs infos with
    | none => none
    | some s' => collectRunFrom gamma numEnvs nRolloutSteps s' rest

/-- Initial cycle state: buffer reset (contents undefined, modelled as 0),
write cursor at row 0, all ledgers empty (lines 279-284), `n_steps = 0`. -/
def collectInit (numEnvs : Nat) : CollectState :=
  { buffer := fun _ _ => 0, nextRow := 0,
    ledgers := List.replicate numEnvs [], nSteps := 0, collectedEpisodes := 0 }

/-- A full collection cycle of `collect_rollouts` over a step trace. -/
def collectRun (gamma : ℚ) (numEnvs nRolloutSteps : Nat)
    (trace : List (List ℚ × List StepInfo)) : Option CollectState :=
  collectRunFrom gamma numEnvs nRolloutSteps (collectInit numEnvs) trace

/-! ### Bundled observation acquisition (get_obs_bundled_calls, lines 1574-1616)

The single bundled request returns one observation string per environment;
the response length must equal the environment count (assertion, line 1589)
before the per-environment decoding loop (lines 1591-1596) runs. The
environment-local decoding (`stringToObservation` plus frame-stack rollover)
is abstracted as a function argument. -/

def get_obs_bundled_calls (numEnvs : Nat) (allObsstrings : List Nat)
    (decode : Nat → Nat) : Option (List Nat) :=
  if allObsstrings.length = numEnvs then some (allObsstrings.map decode)
  else none

/-! ### Concrete inputs used by the claim witnesses -/

/-- A step payload for a time-limit-truncated episode of length 1: simulator
step 0, done, truncated, terminal observation present with policy value 10,
authoritative reward sequence `[1]`. -/
def c1WitnessInfo : StepInfo := ⟨0, true, true, true, 10, [1], 1⟩

/-- A follow-up non-terminal step payload. -/
def c1WitnessInfoNext : StepInfo := ⟨0, false, false, false, 0, [], 0⟩

/-- State after the truncated-episode iteration of the witness scenario. -/
def c1S1 : CollectState :=
  (collectIteration (1/2) 1 3 (collectInit 1) [1] [c1WitnessInfo]).getD
    (collectInit 1)

/-- State after one further (unfinished) iteration of the witness scenario. -/
def c1S2 : CollectState :=
  (collectRunFrom (1/2) 1 3 c1S1 [([2], [c1WitnessInfoNext])]).getD
    (collectInit 1)

/-! ### Evaluation harness (eval_model_track, lines 817-980, and
test_episodes_identical_start_conditions, lines 1053-1203)

Only the episode bookkeeping is embedded: episode counters, the
map/rotation-pair cursor, reward/length collection and outcome records. The
outcome aggregation `episodes_results.processInfoDictEpisodeFinished`
(episodes_results.py, outside this module) is modelled as appending the
terminal info to a list. -/

/-- Terminal info fields consumed by the evaluation loops: the parsed episode
cumulative reward (`float(info['cumreward'].replace(',', '.'))`) and whether
`info['endEvent'] == 'Success'`. -/
structure EvalInfo where
  cumreward : ℚ
  isSuccess : Bool
deriving Repr, DecidableEq, Inhabited

/-- Loop state of `eval_model_track`. `mapRotationsCounter` is
`map_and_rotations_counter`, the number of (map, spawn-rotation) pairs
consumed by resets so far. -/
structure EvalState where
  episodeCounts : List Nat
  finishedEpisodes : Nat
  mapRotationsCounter : Nat
  episodeRewards : List ℚ
  episodeLengths : List Nat
  currentLengths : List Nat
  results : List EvalInfo
deriving Repr, DecidableEq, Inhabited

/-- Body of the per-environment loop of `eval_model_track` (lines 906-939):
done events are processed only while the slot still owes episodes; a
finished episode is recorded, its counter bumped, and the slot is re-reset
to the next (map, rotation) pair — consuming one pair — only when it still
owes more. -/
def evalHandleEnv (targets : List Nat) (i : Nat) (done : Bool)
    (info : EvalInfo) (s : EvalState) : EvalState :=
  if s.episodeCounts.getD i 0 < targets.getD i 0 then
    if done then
      if (s.episodeCounts.set i (s.episodeCounts.getD i 0 + 1)).getD i 0
          < targets.getD i 0 then
        { episodeCounts := s.episodeCounts.set i (s.episodeCounts.getD i 0 + 1),
          finishedEpisodes := s.finishedEpisodes + 1,
          mapRotationsCounter := s.mapRotationsCounter + 1,
          episodeRewards := s.episodeRewards ++ [info.cumreward],
          episodeLengths := s.episodeLengths ++ [s.currentLengths.getD i 0],
          currentLengths := s.currentLengths.set i 0,
          results := s.results ++ [info] }
      else
        { episodeCounts := s.episodeCounts.set i (s.episodeCounts.getD i 0 + 1),
          finishedEpisodes := s.finishedEpisodes + 1,
          mapRotationsCounter := s.mapRotationsCounter,
          episodeRewards := s.episodeRewards ++ [info.cumreward],
          episodeLengths := s.episodeLengths ++ [s.currentLengths.getD i 0],
          currentLengths := s.currentLengths.set i 0,
          results := s.results ++ [info] }
    else s
  else s

/-- One iteration of the while-loop of `eval_model_track` (lines 889-941):
every slot's current length is bumped, then every environment index is
processed in order. -/
def evalStep (targets : List Nat) (s : EvalState) (dones : List Bool)
    (infos : List EvalInfo) : EvalState :=
  (List.range targets.length).foldl
    (fun acc i =>
      evalHandleEnv targets i (dones.getD i false) (infos.getD i default) acc)
    { s with currentLengths := s.currentLengths.map (· + 1) }

/-- Initial loop state of `eval_model_track` (lines 838-876): all counters
zero; the first-run resets consume `min(n_envs, n_eval_episodes)` map/rotation
pairs (lines 865-875). -/
def evalInit (nEnvs nEval : Nat) : EvalState :=
  { episodeCounts := List.replicate nEnvs 0,
    finishedEpisodes := 0,
    mapRotationsCounter := min nEnvs nEval,
    episodeRewards := [],
    episodeLengths := [],
    currentLengths := List.replicate nEnvs 0,
    results := [] }

/-- The whole collection loop of `eval_model_track` over a trace of step
results. -/
def evalRun (nEnvs nEval : Nat)
    (trace : List (List Bool × List EvalInfo)) : EvalState :=
  trace.foldl
    (fun s t => evalStep (episode_count_targets nEnvs nEval) s t.1 t.2)
    (evalInit nEnvs nEval)

/-- The three consistency assertions after the loop (lines 943-945):
`sum(episode_counts) == n_eval_episodes`,
`finished_episodes == n_eval_episodes`, and
`map_and_rotations_counter == n_eval_episodes`. -/
def evalTrackAsserts (nEval : Nat) (s : EvalState) : Option Unit :=
  if s.episodeCounts.sum ≠ nEval then none
  else if s.finishedEpisodes ≠ nEval then none
  else if s.mapRotationsCounter ≠ nEval then none
  else some ()

/-- Number of map/rotation pairs consumed by the re-resets of one slot when
its episode count is `c` and its target is `t` (one per completed episode
that left the slot still owing more). -/
def resetsConsumed (c t : Nat) : Nat := if c < t then c else c - 1

/-- Loop state of `test_episodes_identical_start_conditions`. `envResets`
counts the `reset_with_mapType_spawnrotation` calls issued from the done
branch (lines 1162-1169). -/
structure IdentState where
  episodeCounts : List Nat
  finishedEpisodes : Nat
  successCount : Nat
  episodeRewards : List ℚ
  episodeLengths : List Nat
  currentLengths : List Nat
  results : List EvalInfo
  envResets : Nat
deriving Repr, DecidableEq, Inhabited

/-- Body of the per-environment loop of
`test_episodes_identical_start_conditions` (lines 1133-1169): done events are
processed only while the slot still owes episodes; a finished episode is
recorded, counted (and counted as a success when its end event is Success),
and the slot is always re-reset to the one fixed map/rotation. -/
def identHandleEnv (targets : List Nat) (i : Nat) (done : Bool)
    (info : EvalInfo) (s : IdentState) : IdentState :=
  if s.episodeCounts.getD i 0 < targets.getD i 0 then
    if done then
      { episodeCounts := s.episodeCounts.set i (s.episodeCounts.getD i 0 + 1),
        finishedEpisodes := s.finishedEpisodes + 1,
        successCount := s.successCount + (if info.isSuccess then 1 else 0),
        episodeRewards := s.episodeRewards ++ [info.cumreward],
        episodeLengths := s.episodeLengths ++ [s.currentLengths.getD i 0],
        currentLengths := s.currentLengths.set i 0,
        results := s.results ++ [info],
        envResets := s.envResets + 1 }
    else s
  else s

/-! ### Evaluation map/rotation generation (generate_map_and_rotations,
lines 786-815)

Python floats are modelled as rationals; `int()` truncates toward zero. -/

/-- Python `int()` truncation toward zero of a rational: the floor of a
nonnegative value, the ceiling of a negative one. -/
def pythonTrunc (q : ℚ) : Int := if 0 ≤ q then ⌊q⌋ else ⌈q⌉

/-- The spawn rotations (lines 797-803): the configured rotation range is
divided into `n_eval_episodes - 1` equal steps (its midpoint when a single
episode is requested), each value truncated to an int. -/
def generate_rotations (rmin rmax : ℚ) (nEval : Nat) : List Int :=
  if nEval = 1 then [pythonTrunc (rmin + (rmax - rmin) / 2)]
  else
    (List.range nEval).map
      (fun (i : Nat) => pythonTrunc
        (rmin + (i : ℚ) * ((rmax - rmin) / ((nEval - 1 : Nat) : ℚ))))

/-- The map cycling (lines 805-810): the difficulty's track numbers — a
parameter here, they come from gymEnv.MapType outside this module — are
cycled through. -/
def generate_tracks (trackNumbers : List Nat) (nEval : Nat) : List Nat :=
  (List.range nEval).map (fun i => trackNumbers.getD (i % trackNumbers.length) 0)

/-- `generate_map_and_rotations` (line 815): the zip of cycled maps and
generated rotations. -/
def generate_map_and_rotations (trackNumbers : List Nat) (rmin rmax : ℚ)
    (nEval : Nat) : List (Nat × Int) :=
  (generate_tracks trackNumbers nEval).zip (generate_rotations rmin rmax nEval)

/-! ### Replay verification (replay_episode, lines 1544-1548)

The per-step assertion loop compares recorded and re-derived action, value
and log-probability with `np.allclose` at its default tolerances. Floats are
modelled as rationals. -/

/-- Absolute value of a rational, written so that it evaluates by cases. -/
def ratAbs (q : ℚ) : ℚ := if q < 0 then -q else q

/-- numpy `allclose` for scalars at its default tolerances `rtol = 1e-5`,
`atol = 1e-8`: `|a - b| <= atol + rtol * |b|`, with `a` the recorded and `b`
the reproduced quantity. -/
def npAllclose (a b : ℚ) : Bool :=
  decide (ratAbs (a - b) ≤ 1 / 100000000 + (1 / 100000) * ratAbs b)

/-- numpy `allclose` for same-shaped arrays: elementwise. -/
def npAllcloseList (a b : List ℚ) : Bool :=
  (a.length == b.length) && (a.zip b).all (fun p => npAllclose p.1 p.2)

/-- One step of a recorded episode next to its re-derived counterpart:
the persisted action/value/log-probability and the ones reproduced from the
persisted images. -/
structure ReplayStep where
  recordedAction : List ℚ
  recordedValue : ℚ
  recordedLogProb : ℚ
  reproducedAction : List ℚ
  reproducedValue : ℚ
  reproducedLogProb : ℚ
deriving Repr, DecidableEq, Inhabited

/-- The three per-step assertions of `replay_episode` (lines 1546-1548), in
their source order: action, then value, then log-probability. -/
def replayStepOk (st : ReplayStep) : Bool :=
  npAllcloseList st.recordedAction st.reproducedAction &&
  npAllclose st.recordedValue st.reproducedValue &&
  npAllclose st.recordedLogProb st.reproducedLogProb

/-- The assertion loop from step index `k` on: stops at the first failing
step, reporting its index. -/
def replayAssertsFrom : Nat → List ReplayStep → Except Nat Unit
  | _, [] => Except.ok ()
  | i, st :: rest =>
    if replayStepOk st then replayAssertsFrom (i + 1) rest
    else Except.error i

/-- The assertion loop of `replay_episode` (lines 1545-1548) over all
recorded steps. -/
def replay_episode_check (steps : List ReplayStep) : Except Nat Unit :=
  replayAssertsFrom 0 steps

/-- A replay step whose reproduced value deviates from the recorded value 0
by `5e-6` — within an absolute tolerance of `1e-5`, yet rejected by the
`np.allclose` default tolerances. -/
def c9CounterStep : ReplayStep := ⟨[0], 0, 0, [0], 1 / 200000, 0⟩

/-- A replay step reproduced exactly. -/
def c9ExactStep : ReplayStep := ⟨[1], 2, 3, [1], 2, 3⟩

/-- A one-step evaluation trace in which both of two environments finish. -/
def c4WitnessTrace : List (List Bool × List EvalInfo) :=
  [([true, true], [⟨5, true⟩, ⟨7, false⟩])]

/-- An `eval_model_track` loop state whose slot 0 already reached its
target. -/
def c10EvalState : EvalState := ⟨[1], 1, 1, [3], [4], [2], [⟨3, true⟩]⟩

/-- A `test_episodes_identical_start_conditions` loop state whose slot 0
already reached its target. -/
def c10IdentState : IdentState := ⟨[1], 1, 1, [3], [4], [2], [⟨3, true⟩], 1⟩

/-- Loop invariant of the `eval_model_track` collection loop. -/
def EvalInv (nEnvs nEval : Nat) (s : EvalState) : Prop :=
  s.episodeCounts.length = nEnvs ∧
  (∀ i, i < nEnvs → s.episodeCounts.getD i 0 ≤ targetOf nEnvs nEval i) ∧
  s.finishedEpisodes = s.episodeCounts.sum ∧
  s.mapRotationsCounter = min nEnvs nEval +
    ∑ i ∈ Finset.range nEnvs,
      resetsConsumed (s.episodeCounts.getD i 0) (targetOf nEnvs nEval i)

theorem maxKey_append_singleton (l : List Nat) (a : Nat) :
    maxKey (l ++ [a]) = some (match maxKey l with
      | none => a
      | some m => max m a) := by
  cases l with
  | nil => simp [maxKey]
  | cons x xs =>
    simp only [maxKey, List.cons_append, List.foldl_append, List.foldl_cons,
      List.foldl_nil]

theorem maxKey_range_succ (n : Nat) :
    maxKey (List.range (n + 1)) = some n := by
  induction n with
  | zero => rfl
  | succ k ih =>
    rw [List.range_succ, maxKey_append_singleton, ih]
    simp

/-- A successful registration into a ledger whose keys are `0..n-1` appends
the key `n` (so the registered step necessarily was `n`). -/
theorem ledgerRegister_range (L : List (Nat × Nat)) (s r : Nat) (L' : List (Nat × Nat))
    (hkeys : L.map Prod.fst = List.range L.length)
    (hreg : ledgerRegister L s r = some L') :
    L'.map Prod.fst = List.range L'.length ∧ s = L.length := by
  unfold ledgerRegister at hreg
  by_cases hc : s ∈ L.map Prod.fst
  · rw [if_pos hc] at hreg
    exact absurd hreg (by simp)
  · rw [if_neg hc] at hreg
    have hslen : ¬ s < L.length := by
      intro hlt
      exact hc (hkeys ▸ List.mem_range.mpr hlt)
    by_cases hs0 : s = 0
    · subst hs0
      have hL0 : L.length = 0 := by omega
      rw [if_pos rfl] at hreg
      have hL : L = [] := List.length_eq_zero.mp hL0
      subst hL
      simp only [List.nil_append, Option.some.injEq] at hreg
      subst hreg
      constructor
      · simp [List.range_succ]
      · simp
    · rw [if_neg hs0] at hreg
      split at hreg
      · exact absurd hreg (by simp)
      · rename_i m hmk
        by_cases hsm : s = m + 1
        · rw [if_pos hsm] at hreg
          have hlen : L.length ≠ 0 := by
            intro h0
            rw [List.length_eq_zero.mp h0] at hmk
            simp [maxKey] at hmk
          obtain ⟨k, hk⟩ : ∃ k, L.length = k + 1 := by
            cases hL : L.length with
            | zero => exact absurd hL hlen
            | succ k => exact ⟨k, rfl⟩
          rw [hkeys, hk, maxKey_range_succ] at hmk
          have hmks : m = k := by injection hmk with h; omega
          simp only [Option.some.injEq] at hreg
          subst hreg
          constructor
          · rw [List.map_append, hkeys]
            simp only [List.map_cons, List.map_nil, List.length_append,
              List.length_cons, List.length_nil]
            rw [List.range_succ]
            simp [hsm, hmks, hk]
          · omega
        · rw [if_neg hsm] at hreg
          exact absurd hreg (by simp)

/-- A chain of successful registrations preserves the contiguity of the key
sequence. -/
theorem foldRegisters_range (ops : List (Nat × Nat)) :
    ∀ L L', L.map Prod.fst = List.range L.length →
    foldRegisters L ops = some L' →
    L'.map Prod.fst = List.range L'.length := by
  induction ops with
  | nil =>
    intro L L' hkeys hfold
    simp only [foldRegisters, Option.some.injEq] at hfold
    subst hfold
    exact hkeys
  | cons op rest ih =>
    intro L L' hkeys hfold
    obtain ⟨s, r⟩ := op
    simp only [foldRegisters] at hfold
    cases hreg : ledgerRegister L s r with
    | none => rw [hreg] at hfold; simp at hfold
    | some L1 =>
      rw [hreg] at hfold
      exact ih L1 L' (ledgerRegister_range L s r L1 hkeys hreg).1 hfold

theorem list_range_map_sum (f : Nat → Nat) (n : Nat) :
    ((List.range n).map f).sum = ∑ i ∈ Finset.range n, f i := by
  induction n with
  | zero => simp
  | succ k ih =>
    rw [List.range_succ, List.map_append, List.sum_append,
      Finset.sum_range_succ, ih]
    simp

theorem sum_targets (N : Nat) (hN : 0 < N) :
    ∀ E : Nat, (∑ i ∈ Finset.range N, (E + i) / N) = E := by
  intro E
  induction E with
  | zero =>
    apply Finset.sum_eq_zero
    intro i hi
    exact Nat.div_eq_of_lt (by simpa using Finset.mem_range.mp hi)
  | succ E ih =>
    have h1 := Finset.sum_range_succ' (fun i => (E + i) / N) N
    have h2 := Finset.sum_range_succ (fun i => (E + i) / N) N
    simp only [Nat.add_zero] at h1 h2
    have h3 : (E + N) / N = E / N + 1 := Nat.add_div_right E hN
    have h5 : (∑ i ∈ Finset.range N, (E + (i + 1)) / N) =
        ∑ i ∈ Finset.range N, (E + 1 + i) / N := by
      apply Finset.sum_congr rfl
      intro i _
      have hshift : E + (i + 1) = E + 1 + i := by omega
      rw [hshift]
    rw [h5] at h1
    omega

theorem episode_count_targets_sum (N E : Nat) (hN : 0 < N) :
    (episode_count_targets N E).sum = E := by
  rw [episode_count_targets, list_range_map_sum]
  exact sum_targets N hN E

theorem reconcileWrites_other (envId : Nat) (auth : List ℚ)
    (ledger : List (Nat × Nat)) :
    ∀ (b : Nat → Nat → ℚ) (row env : Nat),
    (env ≠ envId ∨ row ∉ ledger.map Prod.snd) →
    reconcileWrites envId auth ledger b row env = b row env := by
  induction ledger with
  | nil => intro b row env _; rfl
  | cons p rest ih =>
    intro b row env h
    have hne : ¬(row = p.2 ∧ env = envId) := by
      rintro ⟨hr, he⟩
      rcases h with h | h
      · exact h he
      · exact h (by rw [hr]; simp)
    have hrest : env ≠ envId ∨ row ∉ rest.map Prod.snd := by
      rcases h with h | h
      · exact Or.inl h
      · right
        intro hmem
        exact h (by simp only [List.map_cons]; exact List.mem_cons_of_mem _ hmem)
    rw [reconcileWrites, List.foldl_cons]
    rw [show (List.foldl _ _ rest : Nat → Nat → ℚ) = reconcileWrites envId auth rest
      (fun row env => if row = p.2 ∧ env = envId then auth.getD p.1 0 else b row env)
      from rfl]
    rw [ih _ row env hrest]
    simp [hne]

/-- After the reconciliation writes, every registered cell holds the
authoritative reward of its step (buffer rows being registered at most once). -/
theorem reconcileWrites_mem (envId : Nat) (auth : List ℚ) :
    ∀ (ledger : List (Nat × Nat)) (b : Nat → Nat → ℚ),
    (ledger.map Prod.snd).Nodup →
    ∀ p ∈ ledger, reconcileWrites envId auth ledger b p.2 envId = auth.getD p.1 0 := by
  intro ledger
  induction ledger with
  | nil => intro b _ p hp; exact absurd hp (List.not_mem_nil p)
  | cons q rest ih =>
    intro b hnodup p hp
    have hnodup' : (rest.map Prod.snd).Nodup := by
      simp only [List.map_cons, List.nodup_cons] at hnodup
      exact hnodup.2
    rcases List.mem_cons.mp hp with hq | hrest
    · subst hq
      have hqnot : p.2 ∉ rest.map Prod.snd := by
        simp only [List.map_cons, List.nodup_cons] at hnodup
        exact hnodup.1
      rw [reconcileWrites, List.foldl_cons]
      rw [show (List.foldl _ _ rest : Nat → Nat → ℚ) = reconcileWrites envId auth rest
        (fun row env => if row = p.2 ∧ env = envId then auth.getD p.1 0 else b row env)
        from rfl]
      rw [reconcileWrites_other envId auth rest _ p.2 envId (Or.inr hqnot)]
      simp
    · rw [reconcileWrites, List.foldl_cons]
      rw [show (List.foldl _ _ rest : Nat → Nat → ℚ) = reconcileWrites envId auth rest
        (fun row env => if row = q.2 ∧ env = envId then auth.getD q.1 0 else b row env)
        from rfl]
      exact ih _ hnodup' p hrest

/-! ### Helper lemmas about list indexing -/

theorem getD_set_ne {α : Type} (l : List α) (i j : Nat) (a d : α) (h : i ≠ j) :
    (l.set i a).getD j d = l.getD j d := by
  rw [List.getD_eq_getD_get?, List.getD_eq_getD_get?, List.get?_eq_getElem?,
    List.get?_eq_getElem?, List.getElem?_set_ne h]

theorem getD_set_self {α : Type} (l : List α) (i : Nat) (a d : α)
    (hi : i < l.length) :
    (l.set i a).getD i d = a := by
  rw [List.getD_eq_getD_get?, List.get?_eq_getElem?,
    List.getElem?_set_eq_of_lt a hi]
  rfl

theorem getD_set_same_default {α : Type} (l : List α) (i : Nat) (d : α) :
    (l.set i d).getD i d = d := by
  rcases Nat.lt_or_ge i l.length with h | h
  · exact getD_set_self l i d d h
  · exact List.getD_eq_default _ _ (by simpa using h)

/-! ### Plumbing lemmas about registration and reconciliation -/

theorem ledgerRegister_eq_append (L : List (Nat × Nat)) (s r : Nat)
    (L' : List (Nat × Nat)) (h : ledgerRegister L s r = some L') :
    L' = L ++ [(s, r)] := by
  unfold ledgerRegister at h
  split at h
  · exact absurd h (by simp)
  · split at h
    · exact (Option.some.injEq _ _ ▸ h).symm
    · split at h
      · exact absurd h (by simp)
      · split at h
        · exact (Option.some.injEq _ _ ▸ h).symm
        · exact absurd h (by simp)

/-- Successful registration appends the pair (current step, insert position)
to every environment's ledger and preserves the number of ledgers. -/
theorem registerAll_spec (p : Nat) :
    ∀ (Ls : List (List (Nat × Nat))) (infos : List StepInfo)
      (Ls' : List (List (Nat × Nat))),
    registerAll p Ls infos = some Ls' →
    Ls'.length = Ls.length ∧
    ∀ i, i < Ls.length →
      Ls'.getD i [] = Ls.getD i [] ++ [((infos.getD i default).step, p)] := by
  intro Ls
  induction Ls with
  | nil =>
    intro infos Ls' h
    cases infos with
    | nil =>
      simp only [registerAll, Option.some.injEq] at h
      subst h
      exact ⟨rfl, fun i hi => absurd hi (by simp)⟩
    | cons a as => simp [registerAll] at h
  | cons L Ls ih =>
    intro infos Ls' h
    cases infos with
    | nil => simp [registerAll] at h
    | cons info is =>
      simp only [registerAll] at h
      cases hreg : ledgerRegister L info.step p with
      | none => rw [hreg] at h; simp at h
      | some L1 =>
        rw [hreg] at h
        cases hrest : registerAll p Ls is with
        | none => rw [hrest] at h; simp at h
        | some Ls1 =>
          rw [hrest] at h
          simp only [Option.some.injEq] at h
          subst h
          obtain ⟨hlen, hget⟩ := ih is Ls1 hrest
          refine ⟨by simp [hlen], ?_⟩
          intro i hi
          cases i with
          | zero =>
            simp only [List.getD_cons_zero]
            exact ledgerRegister_eq_append L info.step p L1 hreg
          | succ j =>
            simp only [List.getD_cons_succ]
            exact hget j (by simpa using hi)

theorem reconcileFrom_length (nR nS : Nat) (infos : List StepInfo) :
    ∀ (idxs : List Nat) (b : Nat → Nat → ℚ)
      (ledgers : List (List (Nat × Nat)))
      (b' : Nat → Nat → ℚ) (ledgers' : List (List (Nat × Nat))),
    reconcileFrom nR nS infos idxs b ledgers = some (b', ledgers') →
    ledgers'.length = ledgers.length := by
  intro idxs
  induction idxs with
  | nil =>
    intro b ledgers b' ledgers' h
    simp only [reconcileFrom, Option.some.injEq, Prod.mk.injEq] at h
    rw [h.2]
  | cons i rest ih =>
    intro b ledgers b' ledgers' h
    simp only [reconcileFrom] at h
    split at h
    · cases hrec : reconcileEnv i (infos.getD i default).episodeRewards
          (infos.getD i default).amountOfSteps b (ledgers.getD i []) with
      | none => rw [hrec] at h; simp at h
      | some pr =>
        rw [hrec] at h
        obtain ⟨b1, Li'⟩ := pr
        have := ih b1 (ledgers.set i Li') b' ledgers' h
        simpa using this
    · exact ih b ledgers b' ledgers' h

/-- Environments not visited by the reconciliation loop keep their buffer
column and their ledger. -/
theorem reconcileFrom_untouched (nR nS : Nat) (infos : List StepInfo) (e : Nat) :
    ∀ (idxs : List Nat) (b : Nat → Nat → ℚ)
      (ledgers : List (List (Nat × Nat)))
      (b' : Nat → Nat → ℚ) (ledgers' : List (List (Nat × Nat))),
    e ∉ idxs →
    reconcileFrom nR nS infos idxs b ledgers = some (b', ledgers') →
    (∀ r, b' r e = b r e) ∧ ledgers'.getD e [] = ledgers.getD e [] := by
  intro idxs
  induction idxs with
  | nil =>
    intro b ledgers b' ledgers' _ h
    simp only [reconcileFrom, Option.some.injEq, Prod.mk.injEq] at h
    exact ⟨fun r => by rw [h.1], by rw [h.2]⟩
  | cons i rest ih =>
    intro b ledgers b' ledgers' hmem h
    have hie : i ≠ e := fun hc => hmem (hc ▸ List.mem_cons_self i rest)
    have hrest : e ∉ rest := fun hc => hmem (List.mem_cons_of_mem i hc)
    simp only [reconcileFrom] at h
    split at h
    · cases hrec : reconcileEnv i (infos.getD i default).episodeRewards
          (infos.getD i default).amountOfSteps b (ledgers.getD i []) with
      | none => rw [hrec] at h; simp at h
      | some pr =>
        rw [hrec] at h
        obtain ⟨b1, Li'⟩ := pr
        obtain ⟨hb, hl⟩ := ih b1 (ledgers.set i Li') b' ledgers' hrest h
        have hb1 : ∀ r, b1 r e = b r e := by
          intro r
          have : reconcileWrites i (infos.getD i default).episodeRewards
              (ledgers.getD i []) b r e = b r e :=
            reconcileWrites_other _ _ _ b r e (Or.inl (Ne.symm hie))
          unfold reconcileEnv at hrec
          split at hrec
          · exact absurd hrec (by simp)
          · split at hrec
            · exact absurd hrec (by simp)
            · simp only [Option.some.injEq, Prod.mk.injEq] at hrec
              rw [← hrec.1]
              exact this
        refine ⟨fun r => by rw [hb r, hb1 r], ?_⟩
        rw [hl, getD_set_ne _ _ _ _ _ hie]
    · obtain ⟨hb, hl⟩ := ih b ledgers b' ledgers' hrest h
      exact ⟨hb, hl⟩

/-- Success of `reconcileEnv` forces the two length assertions and yields the
written buffer together with the emptied ledger. -/
theorem reconcileEnv_some_iff (envId : Nat) (auth : List ℚ) (amount : Nat)
    (b : Nat → Nat → ℚ) (L : List (Nat × Nat)) (res) :
    reconcileEnv envId auth amount b L = some res ↔
    auth.length = L.length ∧ L.length = amount ∧
    res = (reconcileWrites envId auth L b, []) := by
  unfold reconcileEnv
  constructor
  · intro h
    split at h
    · exact absurd h (by simp)
    · split at h
      · exact absurd h (by simp)
      · rename_i h1 h2
        simp only [Option.some.injEq] at h
        exact ⟨by omega, by omega, h.symm⟩
  · rintro ⟨h1, h2, h3⟩
    rw [if_neg (by omega), if_neg (by omega), h3]

/-- A buffer cell registered for a *finished* environment is overwritten with
the authoritative reward of its step and survives the rest of the
reconciliation loop; the environment's ledger is emptied. -/
theorem reconcileFrom_done_env (nR nS : Nat) (infos : List StepInfo)
    (e r step : Nat) :
    ∀ (idxs : List Nat) (b : Nat → Nat → ℚ)
      (ledgers : List (List (Nat × Nat)))
      (b' : Nat → Nat → ℚ) (ledgers' : List (List (Nat × Nat))),
    idxs.Nodup → e ∈ idxs →
    ((infos.getD e default).done ∨ nR ≤ nS) →
    ((ledgers.getD e []).map Prod.snd).Nodup →
    (step, r) ∈ ledgers.getD e [] →
    reconcileFrom nR nS infos idxs b ledgers = some (b', ledgers') →
    b' r e = (infos.getD e default).episodeRewards.getD step 0 ∧
    ledgers'.getD e [] = [] := by
  intro idxs
  induction idxs with
  | nil => intro b ledgers b' ledgers' _ hmem; exact absurd hmem (by simp)
  | cons i rest ih =>
    intro b ledgers b' ledgers' hnodup hmem hcond hrows hentry h
    simp only [reconcileFrom] at h
    by_cases hie : i = e
    · subst hie
      rw [if_pos (by exact hcond)] at h
      cases hrec : reconcileEnv i (infos.getD i default).episodeRewards
          (infos.getD i default).amountOfSteps b (ledgers.getD i []) with
      | none => rw [hrec] at h; simp at h
      | some pr =>
        rw [hrec] at h
        obtain ⟨b1, Li'⟩ := pr
        obtain ⟨_, _, hpr⟩ := (reconcileEnv_some_iff _ _ _ _ _ _).mp hrec
        obtain ⟨hb1, hLi⟩ := Prod.mk.injEq .. ▸ hpr
        have hinot : i ∉ rest := (List.nodup_cons.mp hnodup).1
        obtain ⟨hb, hl⟩ := reconcileFrom_untouched nR nS infos i rest b1
          (ledgers.set i Li') b' ledgers' hinot h
        constructor
        · rw [hb r, hb1]
          exact reconcileWrites_mem i _ (ledgers.getD i []) b hrows
            (step, r) hentry
        · rw [hl, hLi, getD_set_same_default]
    · have hmem' : e ∈ rest := by
        rcases List.mem_cons.mp hmem with hc | hc
        · exact absurd hc.symm hie
        · exact hc
      have hnodup' : rest.Nodup := (List.nodup_cons.mp hnodup).2
      split at h
      · cases hrec : reconcileEnv i (infos.getD i default).episodeRewards
            (infos.getD i default).amountOfSteps b (ledgers.getD i []) with
        | none => rw [hrec] at h; simp at h
        | some pr =>
          rw [hrec] at h
          obtain ⟨b1, Li'⟩ := pr
          obtain ⟨_, _, hpr⟩ := (reconcileEnv_some_iff _ _ _ _ _ _).mp hrec
          obtain ⟨hb1, _⟩ := Prod.mk.injEq .. ▸ hpr
          have hgl : (ledgers.set i Li').getD e [] = ledgers.getD e [] :=
            getD_set_ne _ _ _ _ _ hie
          have := ih b1 (ledgers.set i Li') b' ledgers' hnodup' hmem' hcond
            (by rw [hgl]; exact hrows) (by rw [hgl]; exact hentry) h
          exact this
      · exact ih b ledgers b' ledgers' hnodup' hmem' hcond hrows hentry h

/-- A buffer cell whose row is not registered in its environment's ledger is
never written by the reconciliation loop, and stays unregistered. -/
theorem reconcileFrom_stable (nR nS : Nat) (infos : List StepInfo) (r e : Nat) :
    ∀ (idxs : List Nat) (b : Nat → Nat → ℚ)
      (ledgers : List (List (Nat × Nat)))
      (b' : Nat → Nat → ℚ) (ledgers' : List (List (Nat × Nat))),
    r ∉ (ledgers.getD e []).map Prod.snd →
    reconcileFrom nR nS infos idxs b ledgers = some (b', ledgers') →
    b' r e = b r e ∧ r ∉ (ledgers'.getD e []).map Prod.snd := by
  intro idxs
  induction idxs with
  | nil =>
    intro b ledgers b' ledgers' hr h
    simp only [reconcileFrom, Option.some.injEq, Prod.mk.injEq] at h
    exact ⟨by rw [← h.1], by rw [← h.2]; exact hr⟩
  | cons i rest ih =>
    intro b ledgers b' ledgers' hr h
    simp only [reconcileFrom] at h
    split at h
    · cases hrec : reconcileEnv i (infos.getD i default).episodeRewards
          (infos.getD i default).amountOfSteps b (ledgers.getD i []) with
      | none => rw [hrec] at h; simp at h
      | some pr =>
        rw [hrec] at h
        obtain ⟨b1, Li'⟩ := pr
        obtain ⟨_, _, hpr⟩ := (reconcileEnv_some_iff _ _ _ _ _ _).mp hrec
        obtain ⟨hb1, hLi⟩ := Prod.mk.injEq .. ▸ hpr
        have hb1e : b1 r e = b r e := by
          rw [hb1]
          by_cases hie : i = e
          · subst hie
            exact reconcileWrites_other _ _ _ b r i (Or.inr hr)
          · exact reconcileWrites_other _ _ _ b r e (Or.inl (Ne.symm hie))
        have hr' : r ∉ ((ledgers.set i Li').getD e []).map Prod.snd := by
          by_cases hie : i = e
          · subst hie
            rw [hLi, getD_set_same_default]
            simp
          · rw [getD_set_ne _ _ _ _ _ hie]
            exact hr
        obtain ⟨hb, hl⟩ := ih b1 (ledgers.set i Li') b' ledgers' hr' h
        exact ⟨by rw [hb, hb1e], hl⟩
    · exact ih b ledgers b' ledgers' hr h

/-- One collect_rollouts iteration leaves alone every buffer cell lying in an
already filled row that is not registered in the cell's environment ledger;
such a cell also stays unregistered, and the ledger count is preserved. -/
theorem collectIteration_stable (gamma : ℚ) (numEnvs nRolloutSteps : Nat)
    (s s' : CollectState) (rawRewards : List ℚ) (infos : List StepInfo)
    (r e : Nat)
    (hr : r < s.nextRow)
    (hreg : r ∉ ((s.ledgers.getD e []).map Prod.snd))
    (hlen : s.ledgers.length = numEnvs)
    (h : collectIteration gamma numEnvs nRolloutSteps s rawRewards infos = some s') :
    s'.buffer r e = s.buffer r e ∧ r < s'.nextRow ∧
    r ∉ ((s'.ledgers.getD e []).map Prod.snd) ∧
    s'.ledgers.length = numEnvs := by
  unfold collectIteration at h
  split at h
  · exact absurd h (by simp)
  · split at h
    · exact absurd h (by simp)
    · rename_i ledgers1 hra
      split at h
      · exact absurd h (by simp)
      · rename_i buffer2 ledgers2 hrf
        simp only [Option.some.injEq] at h
        obtain ⟨hl1, hg1⟩ := registerAll_spec s.nextRow s.ledgers infos
          ledgers1 hra
        have hreg1 : r ∉ ((ledgers1.getD e []).map Prod.snd) := by
          rcases Nat.lt_or_ge e s.ledgers.length with he | he
          · rw [hg1 e he]
            intro hc
            rw [List.map_append] at hc
            rcases List.mem_append.mp hc with hc | hc
            · exact hreg hc
            · simp only [List.map_cons, List.map_nil, List.mem_singleton] at hc
              omega
          · rw [List.getD_eq_default _ _ (by omega)]
            simp
        obtain ⟨hb2, hreg2⟩ := reconcileFrom_stable nRolloutSteps (s.nSteps + 1)
          infos r e (List.range numEnvs) _ ledgers1 buffer2 ledgers2 hreg1 hrf
        have hl2 := reconcileFrom_length nRolloutSteps (s.nSteps + 1) infos
          (List.range numEnvs) _ ledgers1 buffer2 ledgers2 hrf
        subst h
        refine ⟨?_, Nat.lt_succ_of_lt hr, hreg2,
          by show ledgers2.length = numEnvs; omega⟩
        show buffer2 r e = s.buffer r e
        rw [hb2, if_neg (by omega)]

/-- In the iteration where an environment's episode finishes, the buffer cell
written by this iteration's `add` ends up holding the authoritative reward of
the current simulator step, and the environment's ledger is emptied. -/
theorem collectIteration_done_env (gamma : ℚ) (numEnvs nRolloutSteps : Nat)
    (s s' : CollectState) (rawRewards : List ℚ) (infos : List StepInfo)
    (idx : Nat)
    (hidx : idx < numEnvs)
    (hlen : s.ledgers.length = numEnvs)
    (hdone : (infos.getD idx default).done = true)
    (hnodup : ((s.ledgers.getD idx []).map Prod.snd).Nodup)
    (hfresh : s.nextRow ∉ (s.ledgers.getD idx []).map Prod.snd)
    (h : collectIteration gamma numEnvs nRolloutSteps s rawRewards infos = some s') :
    s'.buffer s.nextRow idx
      = (infos.getD idx default).episodeRewards.getD (infos.getD idx default).step 0 ∧
    s'.ledgers.getD idx [] = [] ∧ s'.nextRow = s.nextRow + 1 ∧
    s'.ledgers.length = numEnvs := by
  unfold collectIteration at h
  split at h
  · exact absurd h (by simp)
  · split at h
    · exact absurd h (by simp)
    · rename_i ledgers1 hra
      split at h
      · exact absurd h (by simp)
      · rename_i buffer2 ledgers2 hrf
        simp only [Option.some.injEq] at h
        obtain ⟨hl1, hg1⟩ := registerAll_spec s.nextRow s.ledgers infos
          ledgers1 hra
        have hidx' : idx < s.ledgers.length := by omega
        have hgidx := hg1 idx hidx'
        have hentry : ((infos.getD idx default).step, s.nextRow) ∈
            ledgers1.getD idx [] := by
          rw [hgidx]
          exact List.mem_append_right _ (List.mem_singleton_self _)
        have hrows1 : ((ledgers1.getD idx []).map Prod.snd).Nodup := by
          rw [hgidx, List.map_append]
          simp only [List.map_cons, List.map_nil]
          rw [List.nodup_append]
          refine ⟨hnodup, List.nodup_singleton _, ?_⟩
          intro a ha hb
          simp only [List.mem_singleton] at hb
          subst hb
          exact hfresh ha
        obtain ⟨hbval, hclr⟩ := reconcileFrom_done_env nRolloutSteps
          (s.nSteps + 1) infos idx s.nextRow (infos.getD idx default).step
          (List.range numEnvs) _ ledgers1 buffer2 ledgers2
          (List.nodup_range numEnvs) (List.mem_range.mpr hidx)
          (Or.inl hdone) hrows1 hentry hrf
        have hl2 := reconcileFrom_length nRolloutSteps (s.nSteps + 1) infos
          (List.range numEnvs) _ ledgers1 buffer2 ledgers2 hrf
        subst h
        exact ⟨hbval, hclr, rfl, by show ledgers2.length = numEnvs; omega⟩

/-- The reward vector passed to the buffer `add` carries, for a truncated
finished episode, the raw reward plus `gamma` times the policy value of the
terminal observation. -/
theorem bootstrapRewards_getD (gamma : ℚ) (numEnvs : Nat) (rawRewards : List ℚ)
    (infos : List StepInfo) (idx : Nat) (hidx : idx < numEnvs)
    (hdone : (infos.getD idx default).done = true)
    (hterm : (infos.getD idx default).hasTerminalObs = true)
    (htrunc : (infos.getD idx default).truncated = true) :
    (bootstrapRewards gamma numEnvs rawRewards infos).getD idx 0 =
      rawRewards.getD idx 0 + gamma * (infos.getD idx default).terminalValue := by
  unfold bootstrapRewards
  rw [List.getD_eq_getElem _ _ (by simpa using hidx)]
  simp only [List.getElem_map, List.getElem_range]
  rw [if_pos ⟨hdone, hterm, htrunc⟩]

/-- Stability across the remainder of a collection cycle. -/
theorem collectRunFrom_stable (gamma : ℚ) (numEnvs nRolloutSteps : Nat)
    (r e : Nat) :
    ∀ (trace : List (List ℚ × List StepInfo)) (s s' : CollectState),
    r < s.nextRow →
    r ∉ ((s.ledgers.getD e []).map Prod.snd) →
    s.ledgers.length = numEnvs →
    collectRunFrom gamma numEnvs nRolloutSteps s trace = some s' →
    s'.buffer r e = s.buffer r e := by
  intro trace
  induction trace with
  | nil =>
    intro s s' _ _ _ h
    simp only [collectRunFrom, Option.some.injEq] at h
    rw [h]
  | cons t rest ih =>
    intro s s' hr hreg hlen h
    obtain ⟨rs, infos⟩ := t
    simp only [collectRunFrom] at h
    cases hit : collectIteration gamma numEnvs nRolloutSteps s rs infos with
    | none => rw [hit] at h; simp at h
    | some s1 =>
      rw [hit] at h
      obtain ⟨hb, hr1, hreg1, hlen1⟩ := collectIteration_stable gamma numEnvs
        nRolloutSteps s s1 rs infos r e hr hreg hlen hit
      rw [ih s1 s' hr1 hreg1 hlen1 h, hb]

/-! ### Evaluation-loop invariant -/

theorem sum_set_succ :
    ∀ (l : List Nat) (i : Nat), i < l.length →
    (l.set i (l.getD i 0 + 1)).sum = l.sum + 1 := by
  intro l
  induction l with
  | nil => intro i hi; simp at hi
  | cons a as ih =>
    intro i hi
    cases i with
    | zero => simp [List.set_cons_zero, Nat.add_comm, Nat.add_assoc, Nat.add_left_comm]
    | succ j =>
      simp only [List.getD_cons_succ, List.set_cons_succ, List.sum_cons]
      rw [ih j (by simpa using hi)]
      omega

theorem list_sum_eq_sum_getD :
    ∀ l : List Nat, l.sum = ∑ i ∈ Finset.range l.length, l.getD i 0 := by
  intro l
  induction l with
  | nil => simp
  | cons a as ih =>
    rw [List.sum_cons, List.length_cons, Finset.sum_range_succ']
    simp only [List.getD_cons_succ, List.getD_cons_zero]
    rw [← ih]
    omega

theorem sum_targets_sub_one (N : Nat) (hN : 0 < N) :
    ∀ E : Nat, min N E + ∑ i ∈ Finset.range N, ((E + i) / N - 1) = E := by
  intro E
  induction E with
  | zero =>
    have hz : ∑ i ∈ Finset.range N, ((0 + i) / N - 1) = 0 := by
      apply Finset.sum_eq_zero
      intro i hi
      have h0 : (0 + i) / N = 0 := by
        rw [Nat.zero_add]
        exact Nat.div_eq_of_lt (Finset.mem_range.mp hi)
      omega
    rw [hz, Nat.min_zero]
  | succ E ih =>
    have h1 := Finset.sum_range_succ' (fun i => (E + i) / N - 1) N
    have h2 := Finset.sum_range_succ (fun i => (E + i) / N - 1) N
    simp only [Nat.add_zero] at h1 h2
    have h3 : (E + N) / N = E / N + 1 := Nat.add_div_right E hN
    have h5 : (∑ i ∈ Finset.range N, ((E + (i + 1)) / N - 1)) =
        ∑ i ∈ Finset.range N, ((E + 1 + i) / N - 1) := by
      apply Finset.sum_congr rfl
      intro i _
      have hshift : E + (i + 1) = E + 1 + i := by omega
      rw [hshift]
    rw [h5] at h1
    rcases Nat.lt_or_ge E N with hEN | hEN
    · have hdiv : E / N = 0 := Nat.div_eq_of_lt hEN
      have hm1 : min N E = E := Nat.min_eq_right (Nat.le_of_lt hEN)
      have hm2 : min N (E + 1) = E + 1 := Nat.min_eq_right hEN
      rw [hm1] at ih
      rw [hm2]
      omega
    · have hdiv : 1 ≤ E / N := (Nat.one_le_div_iff hN).mpr hEN
      have hm1 : min N E = N := Nat.min_eq_left hEN
      have hm2 : min N (E + 1) = N := Nat.min_eq_left (Nat.le_succ_of_le hEN)
      rw [hm1] at ih
      rw [hm2]
      omega

theorem episode_count_targets_length (N E : Nat) :
    (episode_count_targets N E).length = N := by
  simp [episode_count_targets]

theorem episode_count_targets_getD (N E i : Nat) (hi : i < N) :
    (episode_count_targets N E).getD i 0 = targetOf N E i := by
  unfold episode_count_targets targetOf
  rw [List.getD_eq_getElem _ _ (by simpa using hi)]
  simp

theorem evalInv_init (nEnvs nEval : Nat) :
    EvalInv nEnvs nEval (evalInit nEnvs nEval) := by
  have hget : ∀ i, i < nEnvs →
      ((List.replicate nEnvs (0 : Nat)).getD i 0) = 0 := by
    intro i hi
    rw [List.getD_eq_getElem _ _ (by simpa using hi)]
    simp
  refine ⟨by simp [evalInit], fun i hi => by simp [evalInit, hget i hi], ?_, ?_⟩
  · show (0 : Nat) = (List.replicate nEnvs (0 : Nat)).sum
    simp
  · show min nEnvs nEval = min nEnvs nEval + ∑ i ∈ Finset.range nEnvs,
      resetsConsumed ((List.replicate nEnvs (0 : Nat)).getD i 0)
        (targetOf nEnvs nEval i)
    have hz : ∑ i ∈ Finset.range nEnvs,
        resetsConsumed ((List.replicate nEnvs (0 : Nat)).getD i 0)
          (targetOf nEnvs nEval i) = 0 := by
      apply Finset.sum_eq_zero
      intro i hi
      rw [hget i (Finset.mem_range.mp hi)]
      unfold resetsConsumed
      split <;> omega
    omega

theorem evalInv_handle (nEnvs nEval i : Nat) (done : Bool) (info : EvalInfo)
    (s : EvalState) (hi : i < nEnvs) (hinv : EvalInv nEnvs nEval s) :
    EvalInv nEnvs nEval
      (evalHandleEnv (episode_count_targets nEnvs nEval) i done info s) := by
  obtain ⟨hlen, hbound, hfin, hctr⟩ := hinv
  unfold evalHandleEnv
  rw [episode_count_targets_getD nEnvs nEval i hi]
  by_cases hguard : s.episodeCounts.getD i 0 < targetOf nEnvs nEval i
  · rw [if_pos hguard]
    cases done with
    | false => exact ⟨hlen, hbound, hfin, hctr⟩
    | true =>
      rw [if_pos rfl]
      have hset : (s.episodeCounts.set i (s.episodeCounts.getD i 0 + 1)).getD i 0
          = s.episodeCounts.getD i 0 + 1 :=
        getD_set_self _ _ _ _ (by omega)
      rw [hset]
      have hsum := sum_set_succ s.episodeCounts i (by omega)
      have hgets : ∀ j, j ≠ i →
          (s.episodeCounts.set i (s.episodeCounts.getD i 0 + 1)).getD j 0
            = s.episodeCounts.getD j 0 := by
        intro j hj
        exact getD_set_ne _ _ _ _ _ (fun hc => hj hc.symm)
      have hbound' : ∀ j, j < nEnvs →
          (s.episodeCounts.set i (s.episodeCounts.getD i 0 + 1)).getD j 0
            ≤ targetOf nEnvs nEval j := by
        intro j hj
        by_cases hji : j = i
        · subst hji
          rw [hset]
          omega
        · rw [hgets j hji]
          exact hbound j hj
      have hlen' : (s.episodeCounts.set i (s.episodeCounts.getD i 0 + 1)).length
          = nEnvs := by simp [hlen]
      have hsplit_old := Finset.sum_eq_sum_diff_singleton_add
        (Finset.mem_range.mpr hi)
        (fun j => resetsConsumed (s.episodeCounts.getD j 0) (targetOf nEnvs nEval j))
      have hsplit_new := Finset.sum_eq_sum_diff_singleton_add
        (Finset.mem_range.mpr hi)
        (fun j => resetsConsumed
          ((s.episodeCounts.set i (s.episodeCounts.getD i 0 + 1)).getD j 0)
          (targetOf nEnvs nEval j))
      have hcongr : ∑ j ∈ Finset.range nEnvs \ {i},
          resetsConsumed
            ((s.episodeCounts.set i (s.episodeCounts.getD i 0 + 1)).getD j 0)
            (targetOf nEnvs nEval j)
          = ∑ j ∈ Finset.range nEnvs \ {i},
            resetsConsumed (s.episodeCounts.getD j 0) (targetOf nEnvs nEval j) := by
        apply Finset.sum_congr rfl
        intro j hj
        have hji : j ≠ i := by
          have := (Finset.mem_sdiff.mp hj).2
          simpa using this
        rw [hgets j hji]
      have hrc_old : resetsConsumed (s.episodeCounts.getD i 0)
          (targetOf nEnvs nEval i) = s.episodeCounts.getD i 0 := by
        unfold resetsConsumed
        rw [if_pos hguard]
      by_cases hmore : s.episodeCounts.getD i 0 + 1 < targetOf nEnvs nEval i
      · rw [if_pos hmore]
        refine ⟨hlen', hbound', ?_, ?_⟩
        · show s.finishedEpisodes + 1
            = (s.episodeCounts.set i (s.episodeCounts.getD i 0 + 1)).sum
          rw [hsum, hfin]
        · show s.mapRotationsCounter + 1 = min nEnvs nEval +
            ∑ j ∈ Finset.range nEnvs, resetsConsumed
              ((s.episodeCounts.set i (s.episodeCounts.getD i 0 + 1)).getD j 0)
              (targetOf nEnvs nEval j)
          have hrc_new : resetsConsumed (s.episodeCounts.getD i 0 + 1)
              (targetOf nEnvs nEval i) = s.episodeCounts.getD i 0 + 1 := by
            unfold resetsConsumed
            rw [if_pos hmore]
          rw [hsplit_new, hcongr, hset, hrc_new]
          rw [hsplit_old, hrc_old] at hctr
          omega
      · rw [if_neg hmore]
        refine ⟨hlen', hbound', ?_, ?_⟩
        · show s.finishedEpisodes + 1
            = (s.episodeCounts.set i (s.episodeCounts.getD i 0 + 1)).sum
          rw [hsum, hfin]
        · show s.mapRotationsCounter = min nEnvs nEval +
            ∑ j ∈ Finset.range nEnvs, resetsConsumed
              ((s.episodeCounts.set i (s.episodeCounts.getD i 0 + 1)).getD j 0)
              (targetOf nEnvs nEval j)
          have hrc_new : resetsConsumed (s.episodeCounts.getD i 0 + 1)
              (targetOf nEnvs nEval i) = s.episodeCounts.getD i 0 := by
            unfold resetsConsumed
            rw [if_neg hmore]
            omega
          rw [hsplit_new, hcongr, hset, hrc_new]
          rw [hsplit_old, hrc_old] at hctr
          omega
  · rw [if_neg hguard]
    exact ⟨hlen, hbound, hfin, hctr⟩

theorem evalInv_foldl (nEnvs nEval : Nat) (dones : List Bool)
    (infos : List EvalInfo) :
    ∀ (idxs : List Nat) (s : EvalState), (∀ i ∈ idxs, i < nEnvs) →
    EvalInv nEnvs nEval s →
    EvalInv nEnvs nEval
      (idxs.foldl (fun acc i =>
        evalHandleEnv (episode_count_targets nEnvs nEval) i
          (dones.getD i false) (infos.getD i default) acc) s) := by
  intro idxs
  induction idxs with
  | nil => intro s _ hinv; exact hinv
  | cons i rest ih =>
    intro s hall hinv
    rw [List.foldl_cons]
    exact ih _ (fun j hj => hall j (List.mem_cons_of_mem i hj))
      (evalInv_handle nEnvs nEval i (dones.getD i false) (infos.getD i default)
        s (hall i (List.mem_cons_self i rest)) hinv)

theorem evalInv_step (nEnvs nEval : Nat) (s : EvalState) (dones : List Bool)
    (infos : List EvalInfo) (hinv : EvalInv nEnvs nEval s) :
    EvalInv nEnvs nEval
      (evalStep (episode_count_targets nEnvs nEval) s dones infos) := by
  unfold evalStep
  rw [episode_count_targets_length]
  apply evalInv_foldl
  · intro i hi
    exact List.mem_range.mp hi
  · exact hinv

theorem evalInv_run (nEnvs nEval : Nat)
    (trace : List (List Bool × List EvalInfo)) :
    EvalInv nEnvs nEval (evalRun nEnvs nEval trace) := by
  unfold evalRun
  have hgen : ∀ (tr : List (List Bool × List EvalInfo)) (s : EvalState),
      EvalInv nEnvs nEval s →
      EvalInv nEnvs nEval (tr.foldl
        (fun s t => evalStep (episode_count_targets nEnvs nEval) s t.1 t.2) s) := by
    intro tr
    induction tr with
    | nil => intro s hinv; exact hinv
    | cons t rest ih =>
      intro s hinv
      rw [List.foldl_cons]
      exact ih _ (evalInv_step nEnvs nEval s t.1 t.2 hinv)
  exact hgen trace _ (evalInv_init nEnvs nEval)

/-! ### Rotation-sweep lemmas -/

theorem pythonTrunc_intCast (z : Int) : pythonTrunc (z : ℚ) = z := by
  unfold pythonTrunc
  split
  · exact Int.floor_intCast z
  · exact Int.ceil_intCast z

theorem pythonTrunc_mono {a b : ℚ} (h : a ≤ b) :
    pythonTrunc a ≤ pythonTrunc b := by
  unfold pythonTrunc
  by_cases ha : 0 ≤ a
  · rw [if_pos ha, if_pos (le_trans ha h)]
    exact Int.floor_le_floor h
  · rw [if_neg ha]
    by_cases hb : 0 ≤ b
    · rw [if_pos hb]
      have h1 : ⌈a⌉ ≤ 0 := Int.ceil_le.mpr (by
        push_cast
        exact le_of_lt (lt_of_not_ge ha))
      have h2 : (0 : Int) ≤ ⌊b⌋ := Int.floor_nonneg.mpr hb
      omega
    · rw [if_neg hb]
      exact Int.ceil_le_ceil h

theorem generate_rotations_length (rmin rmax : ℚ) (n : Nat) (_hn : 1 ≤ n) :
    (generate_rotations rmin rmax n).length = n := by
  unfold generate_rotations
  split
  · rename_i h
    rw [h]
    rfl
  · simp only [List.length_map, List.length_range]

theorem generate_rotations_head (rmin rmax : ℚ) (n : Nat) (hn : 2 ≤ n) :
    (generate_rotations rmin rmax n).head? = some (pythonTrunc rmin) := by
  unfold generate_rotations
  rw [if_neg (by omega)]
  obtain ⟨m, rfl⟩ : ∃ m, n = m + 1 := ⟨n - 1, by omega⟩
  rw [List.range_succ_eq_map]
  simp only [List.map_cons, List.head?_cons, Option.some.injEq]
  norm_num

theorem generate_rotations_last (rmin rmax : ℚ) (n : Nat) (hn : 2 ≤ n) :
    (generate_rotations rmin rmax n).getLast? = some (pythonTrunc rmax) := by
  unfold generate_rotations
  rw [if_neg (by omega)]
  rw [List.getLast?_eq_getElem?]
  simp only [List.length_map, List.length_range]
  rw [List.getElem?_map, List.getElem?_range (show n - 1 < n by omega)]
  simp only [Option.map_some', Option.some.injEq]
  have hcast : ((n - 1 : Nat) : ℚ) ≠ 0 := Nat.cast_ne_zero.mpr (by omega)
  have harith : rmin + ((n - 1 : Nat) : ℚ) * ((rmax - rmin) / ((n - 1 : Nat) : ℚ))
      = rmax := by
    rw [← mul_div_assoc, mul_div_cancel_left₀ (rmax - rmin) hcast]
    ring
  rw [harith]

theorem generate_rotations_chain (rmin rmax : ℚ) (n : Nat) (h : rmin ≤ rmax) :
    List.Chain' (fun x y => x ≤ y) (generate_rotations rmin rmax n) := by
  unfold generate_rotations
  split
  · exact List.chain'_singleton _
  · apply List.Pairwise.chain'
    apply List.Pairwise.map
    · intro a b hab
      apply pythonTrunc_mono
      have hstep : (0 : ℚ) ≤ (rmax - rmin) / ((n - 1 : Nat) : ℚ) :=
        div_nonneg (by linarith) (Nat.cast_nonneg _)
      have hcast : (a : ℚ) ≤ (b : ℚ) := by exact_mod_cast le_of_lt hab
      nlinarith
    · exact List.pairwise_lt_range n

/-! ### Replay-loop lemmas -/

theorem ratAbs_eq_abs (q : ℚ) : ratAbs q = |q| := by
  unfold ratAbs
  split
  · rename_i h
    rw [abs_of_neg h]
  · rename_i h
    rw [abs_of_nonneg (le_of_not_lt h)]

theorem npAllclose_self (a : ℚ) : npAllclose a a = true := by
  unfold npAllclose
  rw [decide_eq_true_eq, sub_self, ratAbs_eq_abs, ratAbs_eq_abs, abs_zero]
  have h1 : (0 : ℚ) ≤ |a| := abs_nonneg a
  have h2 : (0 : ℚ) ≤ (1 / 100000) * |a| := by positivity
  linarith

theorem npAllclose_zero_smalldev : npAllclose 0 (1 / 200000) = false := by
  unfold npAllclose
  rw [decide_eq_false_iff_not, ratAbs_eq_abs, ratAbs_eq_abs]
  rw [show (0 : ℚ) - 1 / 200000 = -(1 / 200000) by ring, abs_neg,
    abs_of_pos (by norm_num : (0 : ℚ) < 1 / 200000)]
  norm_num

theorem replayStepOk_counter : replayStepOk c9CounterStep = false := by
  show (npAllcloseList [0] [0] && npAllclose 0 (1 / 200000) && npAllclose 0 0)
    = false
  rw [npAllclose_zero_smalldev]
  simp

theorem replayStepOk_exact : replayStepOk c9ExactStep = true := by
  show (npAllcloseList [1] [1] && npAllclose 2 2 && npAllclose 3 3) = true
  have h1 : npAllcloseList [1] [1] = true := by
    show ((([1] : List ℚ).length == ([1] : List ℚ).length)
      && (([1] : List ℚ).zip [1]).all (fun p => npAllclose p.1 p.2)) = true
    simp [npAllclose_self]
  rw [h1, npAllclose_self, npAllclose_self]
  rfl

theorem replay_counter_error :
    replay_episode_check [c9CounterStep] = Except.error 0 := by
  simp [replay_episode_check, replayAssertsFrom, replayStepOk_counter]

theorem replay_pair_error :
    replay_episode_check [c9ExactStep, c9CounterStep] = Except.error 1 := by
  simp [replay_episode_check, replayAssertsFrom, replayStepOk_exact,
    replayStepOk_counter]

theorem replayAssertsFrom_ok (k : Nat) :
    ∀ steps : List ReplayStep,
    (replayAssertsFrom k steps = Except.ok () ↔
      ∀ st ∈ steps, replayStepOk st = true) := by
  intro steps
  induction steps generalizing k with
  | nil => simp [replayAssertsFrom]
  | cons st rest ih =>
    unfold replayAssertsFrom
    by_cases hok : replayStepOk st = true
    · rw [if_pos hok]
      constructor
      · intro h st' hmem
        rcases List.mem_cons.mp hmem with hc | hc
        · rw [hc]; exact hok
        · exact ((ih (k + 1)).mp h) st' hc
      · intro h
        exact (ih (k + 1)).mpr (fun st' hmem => h st' (List.mem_cons_of_mem st hmem))
    · rw [if_neg hok]
      constructor
      · intro h; exact absurd h (by simp)
      · intro h
        exact absurd (h st (List.mem_cons_self st rest)) hok

theorem replayAssertsFrom_error (m : Nat) :
    ∀ (steps : List ReplayStep) (k : Nat),
    replayAssertsFrom k steps = Except.error m →
    k ≤ m ∧ m - k < steps.length ∧
    replayStepOk (steps.getD (m - k) default) = false ∧
    ∀ j, j < m - k → replayStepOk (steps.getD j default) = true := by
  intro steps
  induction steps with
  | nil =>
    intro k h
    simp [replayAssertsFrom] at h
  | cons st rest ih =>
    intro k h
    unfold replayAssertsFrom at h
    by_cases hok : replayStepOk st = true
    · rw [if_pos hok] at h
      obtain ⟨h1, h2, h3, h4⟩ := ih (k + 1) h
      have hk : k < m := by omega
      have hmk : m - k = (m - (k + 1)) + 1 := by omega
      refine ⟨by omega, by simp only [List.length_cons]; omega, ?_, ?_⟩
      · rw [hmk, List.getD_cons_succ]
        exact h3
      · intro j hj
        cases j with
        | zero => simpa using hok
        | succ j' =>
          rw [List.getD_cons_succ]
          exact h4 j' (by omega)
    · rw [if_neg hok] at h
      have hkm : k = m := Except.error.inj h
      subst hkm
      refine ⟨Nat.le_refl k, by simp, ?_, ?_⟩
      · simpa using hok
      · intro j hj
        omega

/-! ### Claim theorems -/

/-- C1, counterexample. The claim states that for an environment finishing
with done, a terminal observation and TimeLimit.truncated, the reward
remaining in the rollout buffer at the end of the collection cycle is the raw
reward incremented by `gamma * V(terminal_obs)`. On a one-step cycle with
raw reward 1, `gamma = 1/2`, terminal value 10 and authoritative reward
sequence `[1]`, the incremented value would be `1 + (1/2)*10 = 6`, but the
buffer cell ends the cycle holding `1`: the done-triggered reward
reconciliation of the very same iteration overwrites the bootstrapped value
with the authoritative reward. -/
theorem c1_counterexample :
    (collectRun (1/2) 1 1 [([1], [⟨0, true, true, true, 10, [1], 1⟩])]).map
      (fun st => st.buffer 0 0) = some 1 ∧
    (1 : ℚ) + (1/2) * 10 = 6 ∧ (1 : ℚ) ≠ 6 := by
  refine ⟨rfl, by norm_num, by norm_num⟩

/-- C1, amended. In `collect_rollouts`, for every environment whose step
result has done, a non-null terminal observation, and TimeLimit.truncated,
the reward vector passed to the buffer `add` is the raw step reward
incremented by `gamma * V(terminal_obs)`; but because done also triggers the
reward reconciliation in the same iteration, the value that the buffer holds
for that step from then on — and hence once the collection cycle ends — is
the authoritative reward `info['rewards'][info['step']]` from the terminal
info payload, not the incremented value. -/
theorem c1_truncation_bootstrap (gamma : ℚ) (numEnvs nRolloutSteps : Nat)
    (s s₁ s₂ : CollectState) (rawRewards : List ℚ) (infos : List StepInfo)
    (idx : Nat) (rest : List (List ℚ × List StepInfo))
    (hidx : idx < numEnvs)
    (hlen : s.ledgers.length = numEnvs)
    (hdone : (infos.getD idx default).done = true)
    (hterm : (infos.getD idx default).hasTerminalObs = true)
    (htrunc : (infos.getD idx default).truncated = true)
    (hnodup : ((s.ledgers.getD idx []).map Prod.snd).Nodup)
    (hfresh : s.nextRow ∉ (s.ledgers.getD idx []).map Prod.snd)
    (hiter : collectIteration gamma numEnvs nRolloutSteps s rawRewards infos
      = some s₁)
    (hrest : collectRunFrom gamma numEnvs nRolloutSteps s₁ rest = some s₂) :
    (bootstrapRewards gamma numEnvs rawRewards infos).getD idx 0
      = rawRewards.getD idx 0 + gamma * (infos.getD idx default).terminalValue ∧
    s₁.buffer s.nextRow idx
      = (infos.getD idx default).episodeRewards.getD (infos.getD idx default).step 0 ∧
    s₂.buffer s.nextRow idx
      = (infos.getD idx default).episodeRewards.getD (infos.getD idx default).step 0 := by
  obtain ⟨hval, hclr, hnr, hlen1⟩ := collectIteration_done_env gamma numEnvs
    nRolloutSteps s s₁ rawRewards infos idx hidx hlen hdone hnodup hfresh hiter
  refine ⟨bootstrapRewards_getD gamma numEnvs rawRewards infos idx hidx hdone
    hterm htrunc, hval, ?_⟩
  have hstable := collectRunFrom_stable gamma numEnvs nRolloutSteps s.nextRow
    idx rest s₁ s₂ (by omega) (by rw [hclr]; simp) hlen1 hrest
  rw [hstable, hval]

/-- Witness for C1 (amended): the concrete truncated one-step episode with
raw reward 1, `gamma = 1/2`, terminal value 10 and authoritative rewards
`[1]`, followed by one more unfinished step; the value handed to `add` is 6,
the stored value after the iteration and after the rest of the cycle is 1. -/
theorem c1_truncation_bootstrap_witness :
    (bootstrapRewards (1/2) 1 [1] [c1WitnessInfo]).getD 0 0 = 6 ∧
    c1S1.buffer 0 0 = 1 ∧ c1S2.buffer 0 0 = 1 := by
  have h := c1_truncation_bootstrap (1/2) 1 3 (collectInit 1) c1S1 c1S2
    [1] [c1WitnessInfo] 0 [([2], [c1WitnessInfoNext])]
    (by decide) rfl rfl rfl rfl (by decide) (by decide) rfl rfl
  refine ⟨?_, ?_, ?_⟩
  · rw [h.1]; norm_num [c1WitnessInfo]
  · exact h.2.1
  · exact h.2.2

/-- C2: when an environment's episode completes (or the horizon is hit), the
done-or-horizon branch of `collect_rollouts` overwrites, for every
`(step_idx, row_idx)` pair of that environment's ledger,
`buffer.rewards[row_idx][env]` with `authoritative_rewards[step_idx]` (each
registered row exactly once: rows registered at most once get exactly the
authoritative value of their step, all other cells stay untouched); the
branch requires `len(authoritative_rewards) == len(ledger[env])` and
`len(ledger[env]) == amount_of_steps`, each mismatch being fatal; afterwards
the environment's ledger is empty. -/
theorem c2_reconciliation (envId : Nat) (b : Nat → Nat → ℚ)
    (L : List (Nat × Nat)) (auth : List ℚ) (amount : Nat)
    (hlen : auth.length = L.length) (hamount : L.length = amount)
    (hnodup : (L.map Prod.snd).Nodup) :
    reconcileEnv envId auth amount b L
      = some (reconcileWrites envId auth L b, []) ∧
    (∀ p ∈ L, reconcileWrites envId auth L b p.2 envId = auth.getD p.1 0) ∧
    (∀ row env, (env ≠ envId ∨ row ∉ L.map Prod.snd) →
      reconcileWrites envId auth L b row env = b row env) ∧
    (∀ (auth' : List ℚ) (L' : List (Nat × Nat)),
      auth'.length ≠ L'.length → reconcileEnv envId auth' amount b L' = none) ∧
    (∀ (auth' : List ℚ) (L' : List (Nat × Nat)) (amount' : Nat),
      auth'.length = L'.length → L'.length ≠ amount' →
      reconcileEnv envId auth' amount' b L' = none) := by
  refine ⟨(reconcileEnv_some_iff _ _ _ _ _ _).mpr ⟨hlen, hamount, rfl⟩,
    fun p hp => reconcileWrites_mem envId auth L b hnodup p hp,
    fun row env h => reconcileWrites_other envId auth L b row env h,
    fun auth' L' hne => by unfold reconcileEnv; rw [if_pos hne],
    fun auth' L' amount' he hne => by
      unfold reconcileEnv
      rw [if_neg (by omega)]
      simp only [if_pos hne]⟩

/-- Witness for C2: a two-step episode of environment 1 registered at buffer
rows 5 and 6 with authoritative rewards `[3, 4]`: both cells are overwritten
with their step's authoritative reward, an unregistered cell stays 0, and a
length mismatch is fatal. -/
theorem c2_reconciliation_witness :
    reconcileEnv 1 [3, 4] 2 (fun _ _ => 0) [(0, 5), (1, 6)]
      = some (reconcileWrites 1 [3, 4] [(0, 5), (1, 6)] (fun _ _ => 0), []) ∧
    reconcileWrites 1 [3, 4] [(0, 5), (1, 6)] (fun _ _ => 0) 5 1 = 3 ∧
    reconcileWrites 1 [3, 4] [(0, 5), (1, 6)] (fun _ _ => 0) 6 1 = 4 ∧
    reconcileWrites 1 [3, 4] [(0, 5), (1, 6)] (fun _ _ => 0) 7 1 = 0 ∧
    reconcileEnv 1 [3] 2 (fun _ _ => 0) [(0, 5), (1, 6)] = none := by
  have h := c2_reconciliation 1 (fun _ _ => 0) [(0, 5), (1, 6)] [3, 4] 2
    rfl rfl (by decide)
  exact ⟨h.1, h.2.1 (0, 5) (by decide), h.2.1 (1, 6) (by decide),
    h.2.2.1 7 1 (Or.inr (by decide)), h.2.2.2.1 [3] [(0, 5), (1, 6)] (by decide)⟩

/-- C3: registering a (step index -> row index) entry fails fatally if the
step index is already a key of the environment's ledger, or if it is nonzero
and different from `max(keys) + 1`; consequently, any sequence of successful
registrations starting from an empty ledger yields exactly the key sequence
`0, 1, ..., len-1` in insertion order. -/
theorem c3_register_contiguous :
    (∀ (L : List (Nat × Nat)) (s r : Nat),
      s ∈ L.map Prod.fst → ledgerRegister L s r = none) ∧
    (∀ (L : List (Nat × Nat)) (s r m : Nat),
      s ≠ 0 → maxKey (L.map Prod.fst) = some m → s ≠ m + 1 →
      ledgerRegister L s r = none) ∧
    (∀ (ops : List (Nat × Nat)) (L' : List (Nat × Nat)),
      foldRegisters [] ops = some L' →
      L'.map Prod.fst = List.range L'.length) := by
  refine ⟨?_, ?_, ?_⟩
  · intro L s r hmem
    unfold ledgerRegister
    rw [if_pos hmem]
  · intro L s r m hs0 hmk hsm
    unfold ledgerRegister
    by_cases hmem : s ∈ L.map Prod.fst
    · rw [if_pos hmem]
    · rw [if_neg hmem, if_neg hs0, hmk]
      simp only [if_neg hsm]
  · intro ops L' h
    exact foldRegisters_range ops [] L' (by simp) h

/-- Witness for C3: re-registering step 0 fails, registering step 2 after
only step 0 fails, and the successful chain 0, 1, 2 yields keys `[0, 1, 2]`. -/
theorem c3_register_contiguous_witness :
    ledgerRegister [(0, 4)] 0 9 = none ∧
    ledgerRegister [(0, 4)] 2 9 = none ∧
    foldRegisters [] [(0, 4), (1, 7), (2, 9)] = some [(0, 4), (1, 7), (2, 9)] ∧
    [((0 : Nat), (4 : Nat)), (1, 7), (2, 9)].map Prod.fst = List.range 3 := by
  refine ⟨c3_register_contiguous.1 [(0, 4)] 0 9 (by decide),
    c3_register_contiguous.2.1 [(0, 4)] 2 9 0 (by decide) rfl (by decide),
    rfl, ?_⟩
  exact c3_register_contiguous.2.2 [(0, 4), (1, 7), (2, 9)]
    [(0, 4), (1, 7), (2, 9)] rfl

/-- C5, counterexample: with 4 environment slots and 10 evaluation episodes
the computed per-environment targets `[(10+i)//4 for i in range(4)]` are not
`[3, 3, 2, 2]`. -/
theorem c5_counterexample : episode_count_targets 4 10 ≠ [3, 3, 2, 2] := by
  decide

/-- C5, amended: with 4 environment slots and 10 evaluation episodes the
per-environment targets `(10+i)//4` for `i = 0..3` are `[2, 2, 3, 3]`
(the extra episodes go to the last slots, not the first), summing to 10. -/
theorem c5_targets_4_10 : episode_count_targets 4 10 = [2, 2, 3, 3] ∧
    (episode_count_targets 4 10).sum = 10 := by decide

/-- C6: for every `n_eval_episodes >= 1` and environment count `N >= 1`, the
targets `(n_eval_episodes + i) // N` for `i = 0..N-1` sum to exactly
`n_eval_episodes`. -/
theorem c6_targets_sum (N E : Nat) (hN : 1 ≤ N) (_hE : 1 ≤ E) :
    (episode_count_targets N E).sum = E :=
  episode_count_targets_sum N E hN

/-- Witness for C6: 3 environments and 7 episodes give targets summing to 7. -/
theorem c6_targets_sum_witness : (1 : Nat) ≤ 3 ∧ (1 : Nat) ≤ 7 ∧
    (episode_count_targets 3 7).sum = 7 :=
  ⟨by decide, by decide, c6_targets_sum 3 7 (by decide) (by decide)⟩

/-- C8: a bundled observation response whose length differs from the
environment count makes `get_obs_bundled_calls` fail before any
demultiplexing, and an info list whose length differs from the environment
count makes the collect_rollouts iteration fail before any ledger
registration: in both cases the result is `none` and no per-environment
processing output exists. -/
theorem c8_length_mismatch_fatal :
    (∀ (numEnvs : Nat) (strs : List Nat) (decode : Nat → Nat),
      strs.length ≠ numEnvs → get_obs_bundled_calls numEnvs strs decode = none) ∧
    (∀ (gamma : ℚ) (numEnvs nRoll : Nat) (s : CollectState)
      (rawRewards : List ℚ) (infos : List StepInfo),
      infos.length ≠ numEnvs →
      collectIteration gamma numEnvs nRoll s rawRewards infos = none) := by
  constructor
  · intro n strs d h
    unfold get_obs_bundled_calls
    rw [if_neg h]
  · intro gamma n nR s rs infos h
    unfold collectIteration
    rw [if_pos h]

/-- Witness for C8: a one-element response for two environments is rejected,
and an empty info list for two environments aborts the iteration. -/
theorem c8_length_mismatch_fatal_witness :
    get_obs_bundled_calls 2 [5] (fun x => x) = none ∧
    collectIteration 1 2 4 (collectInit 2) [] [] = none :=
  ⟨c8_length_mismatch_fatal.1 2 [5] (fun x => x) (by decide),
    c8_length_mismatch_fatal.2 1 2 4 (collectInit 2) [] [] (by decide)⟩

/-- C4: whenever the `eval_model_track` collection loop exits (that is, every
slot has reached its episode target), the number of completed episodes
counted, the number of (map, spawn-rotation) pairs consumed by resets, and
`n_eval_episodes` are all equal — so the three consistency assertions after
the loop all pass; conversely those assertions abort on any mismatch (they
are modelled by `evalTrackAsserts`, which yields `none` unless all three
quantities equal `n_eval_episodes`). -/
theorem c4_eval_track_counts (nEnvs nEval : Nat) (hN : 0 < nEnvs)
    (_hE : 1 ≤ nEval) (trace : List (List Bool × List EvalInfo))
    (hexit : ∀ i, i < nEnvs →
      targetOf nEnvs nEval i ≤ (evalRun nEnvs nEval trace).episodeCounts.getD i 0) :
    (evalRun nEnvs nEval trace).finishedEpisodes = nEval ∧
    (evalRun nEnvs nEval trace).mapRotationsCounter = nEval ∧
    (evalRun nEnvs nEval trace).episodeCounts.sum = nEval ∧
    evalTrackAsserts nEval (evalRun nEnvs nEval trace) = some () := by
  obtain ⟨hlen, hbound, hfin, hctr⟩ := evalInv_run nEnvs nEval trace
  have heq : ∀ i, i < nEnvs →
      (evalRun nEnvs nEval trace).episodeCounts.getD i 0
        = targetOf nEnvs nEval i := by
    intro i hi
    exact Nat.le_antisymm (hbound i hi) (hexit i hi)
  have hsum : (evalRun nEnvs nEval trace).episodeCounts.sum = nEval := by
    rw [list_sum_eq_sum_getD, hlen]
    rw [Finset.sum_congr rfl (fun i hi => heq i (Finset.mem_range.mp hi))]
    exact sum_targets nEnvs hN nEval
  have hfin' : (evalRun nEnvs nEval trace).finishedEpisodes = nEval := by
    rw [hfin, hsum]
  have hctr' : (evalRun nEnvs nEval trace).mapRotationsCounter = nEval := by
    rw [hctr]
    have hre : ∀ i ∈ Finset.range nEnvs,
        resetsConsumed ((evalRun nEnvs nEval trace).episodeCounts.getD i 0)
          (targetOf nEnvs nEval i) = (nEval + i) / nEnvs - 1 := by
      intro i hi
      rw [heq i (Finset.mem_range.mp hi)]
      unfold resetsConsumed targetOf
      rw [if_neg (by omega)]
    calc min nEnvs nEval + ∑ i ∈ Finset.range nEnvs,
          resetsConsumed ((evalRun nEnvs nEval trace).episodeCounts.getD i 0)
            (targetOf nEnvs nEval i)
        = min nEnvs nEval + ∑ i ∈ Finset.range nEnvs, ((nEval + i) / nEnvs - 1) := by
          rw [Finset.sum_congr rfl hre]
      _ = nEval := sum_targets_sub_one nEnvs hN nEval
  refine ⟨hfin', hctr', hsum, ?_⟩
  unfold evalTrackAsserts
  rw [if_neg (by omega), if_neg (by omega), if_neg (by omega)]

/-- Witness for C4: two environments, two episodes, both finishing in the
first step; the loop exits with 2 finished episodes and 2 consumed pairs. -/
theorem c4_eval_track_counts_witness :
    (evalRun 2 2 c4WitnessTrace).finishedEpisodes = 2 ∧
    (evalRun 2 2 c4WitnessTrace).mapRotationsCounter = 2 ∧
    (evalRun 2 2 c4WitnessTrace).episodeCounts.sum = 2 ∧
    evalTrackAsserts 2 (evalRun 2 2 c4WitnessTrace) = some () :=
  c4_eval_track_counts 2 2 (by decide) (by decide) c4WitnessTrace (by decide)

/-- C7: `generate_map_and_rotations` returns exactly `n_eval_episodes`
(map, rotation) pairs; the rotations arise from dividing the configured
rotation range into `n_eval_episodes - 1` equal steps (range midpoint for a
single episode), each truncated to an int; for the range `[-15, 15]` and 20
episodes the step is `30/19`, the first rotation is `-15`, the last is `15`,
and the rotation sequence is monotonically increasing (non-strictly: the
truncation to ints produces the documented duplicate `0, 0` at indices
9 and 10, exactly as in the example listed in the source comment). -/
theorem c7_rotation_sweep (trackNumbers : List Nat) (rmin rmax : ℚ)
    (nEval : Nat) (hn : 1 ≤ nEval) :
    (generate_map_and_rotations trackNumbers rmin rmax nEval).length = nEval ∧
    generate_rotations rmin rmax 1 = [pythonTrunc (rmin + (rmax - rmin) / 2)] ∧
    (∀ n : Nat, 2 ≤ n → ∀ i, i < n →
      (generate_rotations rmin rmax n).getD i 0 =
        pythonTrunc (rmin + i * ((rmax - rmin) / ((n - 1 : Nat) : ℚ)))) ∧
    ((15 : ℚ) - (-15)) / ((20 - 1 : Nat) : ℚ) = 30 / 19 ∧
    (generate_rotations (-15) 15 20).head? = some (-15) ∧
    (generate_rotations (-15) 15 20).getLast? = some 15 ∧
    List.Chain' (fun x y => x ≤ y) (generate_rotations (-15) 15 20) := by
  refine ⟨?_, ?_, ?_, by norm_num, ?_, ?_,
    generate_rotations_chain (-15) 15 20 (by norm_num)⟩
  · unfold generate_map_and_rotations generate_tracks
    rw [List.length_zip, generate_rotations_length rmin rmax nEval hn]
    simp only [List.length_map, List.length_range, Nat.min_self]
  · unfold generate_rotations
    rw [if_pos rfl]
  · intro n hn2 i hi
    unfold generate_rotations
    rw [if_neg (by omega)]
    rw [List.getD_eq_getElem _ _ (by simpa using hi)]
    rw [List.getElem_map, List.getElem_range]
  · rw [generate_rotations_head (-15) 15 20 (by omega)]
    rw [show ((-15 : ℚ)) = ((-15 : Int) : ℚ) by norm_num, pythonTrunc_intCast]
  · rw [generate_rotations_last (-15) 15 20 (by omega)]
    rw [show ((15 : ℚ)) = ((15 : Int) : ℚ) by norm_num, pythonTrunc_intCast]

/-- Witness for C7: the hard-difficulty track numbers, range `[-15, 15]` and
20 episodes give 20 pairs, and the concrete sweep facts hold. -/
theorem c7_rotation_sweep_witness :
    (generate_map_and_rotations [7, 8, 9, 10] (-15) 15 20).length = 20 ∧
    ((15 : ℚ) - (-15)) / ((20 - 1 : Nat) : ℚ) = 30 / 19 ∧
    (generate_rotations (-15) 15 20).head? = some (-15) ∧
    (generate_rotations (-15) 15 20).getLast? = some 15 ∧
    List.Chain' (fun x y => x ≤ y) (generate_rotations (-15) 15 20) := by
  have h := c7_rotation_sweep [7, 8, 9, 10] (-15) 15 20 (by decide)
  exact ⟨h.1, h.2.2.2.1, h.2.2.2.2.1, h.2.2.2.2.2.1, h.2.2.2.2.2.2⟩

/-- C9, counterexample. The claim states the replay assertions compare
within an absolute tolerance of `1e-5`. A reproduced value deviating from a
recorded value of 0 by `5e-6` lies within that absolute tolerance, yet
`replay_episode` rejects it: `np.allclose` at its default tolerances
(`atol = 1e-8`, `rtol = 1e-5` of the reproduced magnitude) allows only about
`1e-8` of absolute deviation near zero. -/
theorem c9_counterexample :
    |(0 : ℚ) - 1 / 200000| ≤ 1 / 100000 ∧
    replay_episode_check [c9CounterStep] = Except.error 0 := by
  constructor
  · rw [abs_of_nonpos (by norm_num)]
    norm_num
  · exact replay_counter_error

/-- C9, amended. For every step `i` of a recorded episode, `replay_episode`
asserts that the re-derived action, value and log-probability are close to
the recorded ones under `np.allclose` with its default tolerances — absolute
`1e-8` plus relative `1e-5` of the reproduced magnitude, elementwise — and
fails on the first step at which any of the three is not; it succeeds
exactly when every step passes. -/
theorem c9_replay_tolerance (steps : List ReplayStep) :
    (∀ a b : ℚ, npAllclose a b = true ↔
      |a - b| ≤ 1 / 100000000 + (1 / 100000) * (|b|)) ∧
    (replay_episode_check steps = Except.ok () ↔
      ∀ st ∈ steps, replayStepOk st = true) ∧
    (∀ i, replay_episode_check steps = Except.error i →
      i < steps.length ∧ replayStepOk (steps.getD i default) = false ∧
      ∀ j, j < i → replayStepOk (steps.getD j default) = true) := by
  refine ⟨fun a b => by
    unfold npAllclose
    rw [ratAbs_eq_abs, ratAbs_eq_abs]
    exact decide_eq_true_iff, ?_, ?_⟩
  · exact replayAssertsFrom_ok 0 steps
  · intro i h
    obtain ⟨_, h2, h3, h4⟩ := replayAssertsFrom_error i steps 0 h
    exact ⟨by simpa using h2, by simpa using h3,
      fun j hj => h4 j (by simpa using hj)⟩

/-- Witness for C9 (amended): an exactly reproduced step passes; appending
the near-zero deviating step makes the check fail exactly at index 1, with
step 0 still passing. -/
theorem c9_replay_tolerance_witness :
    npAllclose 2 2 = true ∧
    replay_episode_check [c9ExactStep] = Except.ok () ∧
    ((1 : Nat) < 2 ∧
      replayStepOk ([c9ExactStep, c9CounterStep].getD 1 default) = false ∧
      ∀ j, j < 1 → replayStepOk ([c9ExactStep, c9CounterStep].getD j default)
        = true) := by
  refine ⟨?_, ?_, ?_⟩
  · exact ((c9_replay_tolerance []).1 2 2).mpr (by norm_num)
  · refine (c9_replay_tolerance [c9ExactStep]).2.1.mpr ?_
    intro st hst
    rw [List.mem_singleton] at hst
    rw [hst]
    exact replayStepOk_exact
  · exact (c9_replay_tolerance [c9ExactStep, c9CounterStep]).2.2 1
      replay_pair_error

/-- C10: in `eval_model_track` and
`test_episodes_identical_start_conditions`, a done event observed in a slot
whose episode count has already reached its target is silently ignored: the
loop body returns the state unchanged — nothing is added to the episode
rewards, lengths or outcome records, no counter is incremented, and no
re-reset (map/rotation consumption or fixed-condition reset) is issued. -/
theorem c10_at_target_done_ignored (targets : List Nat) (i : Nat)
    (done : Bool) (info : EvalInfo) (s : EvalState) (s₂ : IdentState)
    (h1 : targets.getD i 0 ≤ s.episodeCounts.getD i 0)
    (h2 : targets.getD i 0 ≤ s₂.episodeCounts.getD i 0) :
    evalHandleEnv targets i done info s = s ∧
    identHandleEnv targets i done info s₂ = s₂ := by
  constructor
  · unfold evalHandleEnv
    rw [if_neg (by omega)]
  · unfold identHandleEnv
    rw [if_neg (by omega)]

/-- Witness for C10: both loop bodies leave a state with slot 0 at its
target of one episode untouched when a done for slot 0 arrives. -/
theorem c10_at_target_done_ignored_witness :
    evalHandleEnv [1] 0 true ⟨3, true⟩ c10EvalState = c10EvalState ∧
    identHandleEnv [1] 0 true ⟨3, true⟩ c10IdentState = c10IdentState :=
  c10_at_target_done_ignored [1] 0 true ⟨3, true⟩ c10EvalState c10IdentState
    (by decide) (by decide)

end Carsim

